import Mathlib

/-!
Verification of the mosaik voice engine against its specification.

The definitions below are a shallow embedding of the Rust sources:
- `src/voice/src/close_code.rs` (close-code classification),
- `src/voice/src/constants.rs` (timing and packet constants),
- `src/voice/src/lib.rs` (`VoiceConnection`: packet sending, pause logic,
  send-loop body and exit path),
- `src/voice/src/buffer.rs` (`SampleBuffer`: corked ring buffer),
- `src/worker/src/voice/udp.rs` (`UdpVoiceConnection` wrapping counters).

Machine integers are modelled as `Nat` with explicit reduction modulo
`2 ^ 16` / `2 ^ 32` where the Rust code uses wrapping types.
-/

namespace Mosaik

/-! ## close_code.rs -/

/-- `GatewayCloseCode` from `src/voice/src/close_code.rs`.  The `unknown`
payload is the raw 16-bit close code, modelled as `Nat`. -/
inductive GatewayCloseCode where
  | unknownOpcode
  | failedToDecodePayload
  | notAuthenticated
  | authenticationFailed
  | alreadyAuthenticated
  | sessionNoLongerValid
  | sessionTimeout
  | serverNotFound
  | unknownProtocol
  | disconnected
  | voiceServerCrashed
  | unknownEncryptionMode
  | unknown (code : Nat)
deriving DecidableEq, Repr

namespace GatewayCloseCode

/-- `GatewayCloseCode::can_reconnect`: `matches!(self, VoiceServerCrashed)`. -/
def canReconnect : GatewayCloseCode → Bool
  | .voiceServerCrashed => true
  | _ => false

/-- `impl From<GatewayCloseCode> for u16`. -/
def toU16 : GatewayCloseCode → Nat
  | .unknownOpcode => 4001
  | .failedToDecodePayload => 4002
  | .notAuthenticated => 4003
  | .authenticationFailed => 4004
  | .alreadyAuthenticated => 4005
  | .sessionNoLongerValid => 4006
  | .sessionTimeout => 4009
  | .serverNotFound => 4011
  | .unknownProtocol => 4012
  | .disconnected => 4014
  | .voiceServerCrashed => 4015
  | .unknownEncryptionMode => 4016
  | .unknown code => code

/-- `impl From<u16> for GatewayCloseCode`. -/
def fromU16 (code : Nat) : GatewayCloseCode :=
  match code with
  | 4001 => .unknownOpcode
  | 4002 => .failedToDecodePayload
  | 4003 => .notAuthenticated
  | 4004 => .authenticationFailed
  | 4005 => .alreadyAuthenticated
  | 4006 => .sessionNoLongerValid
  | 4009 => .sessionTimeout
  | 4011 => .serverNotFound
  | 4012 => .unknownProtocol
  | 4014 => .disconnected
  | 4015 => .voiceServerCrashed
  | 4016 => .unknownEncryptionMode
  | _ => .unknown code

end GatewayCloseCode

/-- C4: `can_reconnect` holds exactly for `VoiceServerCrashed`; it is false on
every other named variant and on every `Unknown code`; and for every numeric
close code `c` (in particular every `u16`), `canReconnect (fromU16 c)` holds
if and only if `c = 4015`. -/
theorem canReconnect_characterization :
    (∀ g : GatewayCloseCode, g.canReconnect = true ↔ g = .voiceServerCrashed) ∧
    (∀ c : Nat, (GatewayCloseCode.fromU16 c).canReconnect = true ↔ c = 4015) := by
  constructor
  · intro g
    cases g <;> simp [GatewayCloseCode.canReconnect]
  · intro c
    unfold GatewayCloseCode.fromU16
    split <;> simp_all [GatewayCloseCode.canReconnect]

/-- C10: converting a numeric close code to `GatewayCloseCode` and back is the
identity on every code (in particular on every `u16`); the in-range codes
4007, 4008, 4010 and 4013 have no named variant, convert to `unknown`, and are
classified as not resumable. -/
theorem closeCode_roundTrip :
    (∀ c : Nat, (GatewayCloseCode.fromU16 c).toU16 = c) ∧
    (GatewayCloseCode.fromU16 4007 = .unknown 4007 ∧
      GatewayCloseCode.fromU16 4008 = .unknown 4008 ∧
      GatewayCloseCode.fromU16 4010 = .unknown 4010 ∧
      GatewayCloseCode.fromU16 4013 = .unknown 4013) ∧
    ((GatewayCloseCode.fromU16 4007).canReconnect = false ∧
      (GatewayCloseCode.fromU16 4008).canReconnect = false ∧
      (GatewayCloseCode.fromU16 4010).canReconnect = false ∧
      (GatewayCloseCode.fromU16 4013).canReconnect = false) := by
  refine ⟨?_, by decide, by decide⟩
  intro c
  unfold GatewayCloseCode.fromU16
  split <;> simp_all [GatewayCloseCode.toU16]

/-! ## constants.rs -/

/-- `SAMPLE_RATE` from `src/voice/src/constants.rs`. -/
def SAMPLE_RATE : Nat := 48000

/-- `CHANNEL_COUNT` from `src/voice/src/constants.rs`. -/
def CHANNEL_COUNT : Nat := 2

/-- `CHUNK_DURATION.as_millis()`: the chunk duration is 20 ms. -/
def CHUNK_DURATION_MS : Nat := 20

/-- `TIMESTAMP_STEP = SAMPLE_RATE / (1000 / CHUNK_DURATION.as_millis())`. -/
def TIMESTAMP_STEP : Nat := SAMPLE_RATE / (1000 / CHUNK_DURATION_MS)

/-- `OPUS_SILENCE_FRAME: [u8; 3] = [0xF8, 0xFF, 0xFE]`. -/
def OPUS_SILENCE_FRAME : List Nat := [0xF8, 0xFF, 0xFE]

/-- `OPUS_SILENCE_FRAMES: u8 = 5`. -/
def OPUS_SILENCE_FRAMES : Nat := 5

/-- `PACKET_SIZE = TIMESTAMP_STEP * CHANNEL_COUNT` from `run_udp_loop`. -/
def PACKET_SIZE : Nat := TIMESTAMP_STEP * CHANNEL_COUNT

/-! ## lib.rs: `send_voice_packet`, `recv_rtcp_stats` and the cipher

PCM samples (`f32` in the source) are modelled as `Int`; encoded audio bytes
as `Nat` (each `< 256` on the wire, not enforced here).  The opus encoder and
the XSalsa20-Poly1305 cipher are external libraries, so they enter the model
as abstract function parameters; the cipher carries the library guarantees
that a detached tag has 16 bytes and in-place encryption preserves length. -/

/-- `AudioFrame` from `src/voice/src/lib.rs`. -/
inductive AudioFrame where
  | opus (data : List Nat)
  | pcm (data : List Int)
deriving DecidableEq, Repr

/-- `VoiceConnectionState` from `src/voice/src/lib.rs`. -/
inductive VoiceConnectionState where
  | disconnected
  | connected
  | playing
deriving DecidableEq, Repr

/-- The XSalsa20-Poly1305 cipher (external crate), abstracted: `encTag` and
`encCt` give the detached tag and the in-place ciphertext for a key, nonce and
plaintext.  `tagLen` and `ctLen` are the library guarantees used by
`send_voice_packet` (the tag is `TAG_SIZE = 16` bytes; in-place encryption
rewrites the plaintext region, preserving its length). -/
structure Crypto where
  encTag : List Nat → List Nat → List Nat → List Nat
  encCt : List Nat → List Nat → List Nat → List Nat
  tagLen : ∀ k n p, (encTag k n p).length = 16
  ctLen : ∀ k n p, (encCt k n p).length = p.length

/-- The mutable state touched by `send_voice_packet`: the connection's cipher
(`VoiceConnection.cipher`, `None` until `connect` installs the session key),
the wrapping counters of `UdpVoiceConnection` (`sequence: Wrap16`,
`timestamp: Wrap32`), and a log of the datagrams given to `socket.send`
(newest last). -/
structure VoiceState where
  cipher : Option (List Nat)
  sequence : Nat
  timestamp : Nat
  sent : List (List Nat)
deriving DecidableEq, Repr

/-- Big-endian bytes of a 16-bit value, as written by `view.set_sequence`. -/
def be16 (n : Nat) : List Nat := [n / 2 ^ 8 % 2 ^ 8, n % 2 ^ 8]

/-- Big-endian bytes of a 32-bit value, as written by `view.set_timestamp`
and `view.set_ssrc`. -/
def be32 (n : Nat) : List Nat :=
  [n / 2 ^ 24 % 2 ^ 8, n / 2 ^ 16 % 2 ^ 8, n / 2 ^ 8 % 2 ^ 8, n % 2 ^ 8]

/-- The 12-byte RTP header written by `send_voice_packet`: byte 0 holds
version 2 in its top two bits (`set_version(2)` over the zero-initialised
buffer gives `0x80`), byte 1 is the payload type
(`set_payload_type(RtpType::Unassigned(0x78))` gives `0x78`), then the
big-endian sequence, timestamp and ssrc. -/
def rtpHeader (sequence timestamp ssrc : Nat) : List Nat :=
  [0x80, 0x78] ++ be16 sequence ++ be32 timestamp ++ be32 ssrc

/-- The bytes placed in the audio region of the payload: an `Opus` frame is
copied verbatim; a `Pcm` frame goes through `opus_encoder.encode_float`
(abstracted as `opusEncode`). -/
def audioBytes (opusEncode : List Int → List Nat) : AudioFrame → List Nat
  | .opus data => data
  | .pcm data => opusEncode data

/-- `VoiceConnection::send_voice_packet` (src/voice/src/lib.rs lines
307-366).  If no cipher is installed it fails with "no voice cipher" before
touching any state.  Otherwise it writes the RTP header with the current
counters, advances `sequence` by 1 (wrapping mod `2^16`) and `timestamp` by
`TIMESTAMP_STEP` (wrapping mod `2^32`), lays the payload out as
`[tag(16)][ciphertext(size)][nonce(24)]` and sends the first
`12 + 16 + size + 24` bytes of the RTP buffer.  The fresh random 24-byte
nonce is a parameter. -/
def sendVoicePacket (crypto : Crypto) (opusEncode : List Int → List Nat)
    (ssrc : Nat) (nonce : List Nat) (st : VoiceState) (frame : AudioFrame) :
    VoiceState × Except String (List Nat) :=
  match st.cipher with
  | none => (st, .error "no voice cipher")
  | some key =>
    let audio := audioBytes opusEncode frame
    let tag := crypto.encTag key nonce audio
    let ct := crypto.encCt key nonce audio
    let datagram := rtpHeader st.sequence st.timestamp ssrc ++ tag ++ ct ++ nonce
    ({ st with
        sequence := (st.sequence + 1) % 2 ^ 16,
        timestamp := (st.timestamp + TIMESTAMP_STEP) % 2 ^ 32,
        sent := st.sent ++ [datagram] },
      .ok datagram)

/-- A sequence of `send_voice_packet` calls, one per (nonce, frame) pair,
threading the state. -/
def sendMany (crypto : Crypto) (opusEncode : List Int → List Nat) (ssrc : Nat) :
    List (List Nat × AudioFrame) → VoiceState → VoiceState
  | [], st => st
  | (nonce, frame) :: rest, st =>
      sendMany crypto opusEncode ssrc rest
        (sendVoicePacket crypto opusEncode ssrc nonce st frame).1

/-- `VoiceConnection::recv_rtcp_stats` (src/voice/src/lib.rs lines 275-305).
`incoming` is the result of `socket.try_recv_from`: `none` models
`WouldBlock` (no pending datagram), in which case the function returns
`Ok(())` before ever looking at the cipher.  With a pending datagram it
parses the nonce and tag, then requires the cipher ("no voice cipher" when
absent); on success the decrypted report is only logged, so the state is
returned unchanged. -/
def recvRtcpStats (st : VoiceState) (incoming : Option (List Nat)) :
    VoiceState × Except String Unit :=
  match incoming with
  | none => (st, .ok ())
  | some _packet =>
    match st.cipher with
    | none => (st, .error "no voice cipher")
    | some _key => (st, .ok ())

/-- The gateway events `connect` can observe while waiting for the session
description (src/voice/src/lib.rs lines 201-215): a `SessionDescription`
carrying the secret key, an undecodable packet (the undocumented opcode 18,
skipped by the loop), or any other decodable event (a hard "Invalid packet"
error). -/
inductive GatewayEvt where
  | sessionDescription (secretKey : List Nat)
  | undecodable
  | other
deriving DecidableEq, Repr

/-- The `loop` in `connect` lines 201-215: skip undecodable packets, stop at
the first `SessionDescription`, fail on any other decodable event; an
exhausted stream models a failed `ws.receive()`. -/
def awaitSessionDescription : List GatewayEvt → Except String (List Nat)
  | [] => .error "connection closed"
  | .undecodable :: rest => awaitSessionDescription rest
  | .other :: _ => .error "Invalid packet"
  | .sessionDescription key :: _ => .ok key

/-- The tail of `connect` (src/voice/src/lib.rs lines 201-222): wait for
`SessionDescription`, then perform the one and only write to
`self.cipher`, and set the state to `Connected`. -/
def connectInstallCipher (st : VoiceState) (events : List GatewayEvt) :
    (VoiceState × VoiceConnectionState) × Except String Unit :=
  match awaitSessionDescription events with
  | .error e => ((st, .disconnected), .error e)
  | .ok key => (({ st with cipher := some key }, .connected), .ok ())

/-- Unfolding `send_voice_packet` when a cipher is installed. -/
theorem sendVoicePacket_some (crypto : Crypto) (opusEncode : List Int → List Nat)
    (ssrc : Nat) (nonce : List Nat) (st : VoiceState) (frame : AudioFrame)
    (key : List Nat) (h : st.cipher = some key) :
    sendVoicePacket crypto opusEncode ssrc nonce st frame =
      ({ st with
          sequence := (st.sequence + 1) % 2 ^ 16,
          timestamp := (st.timestamp + TIMESTAMP_STEP) % 2 ^ 32,
          sent := st.sent ++
            [rtpHeader st.sequence st.timestamp ssrc
              ++ crypto.encTag key nonce (audioBytes opusEncode frame)
              ++ crypto.encCt key nonce (audioBytes opusEncode frame)
              ++ nonce] },
        .ok (rtpHeader st.sequence st.timestamp ssrc
              ++ crypto.encTag key nonce (audioBytes opusEncode frame)
              ++ crypto.encCt key nonce (audioBytes opusEncode frame)
              ++ nonce)) := by
  simp [sendVoicePacket, h]

/-- Counters along any chain of `send_voice_packet` calls: the cipher is
untouched, the sequence advances by the number of calls mod `2^16`, the
timestamp by `TIMESTAMP_STEP` per call mod `2^32`. -/
theorem sendMany_counters (crypto : Crypto) (opusEncode : List Int → List Nat)
    (ssrc : Nat) :
    ∀ (calls : List (List Nat × AudioFrame)) (st : VoiceState) (key : List Nat),
      st.cipher = some key → st.sequence < 2 ^ 16 → st.timestamp < 2 ^ 32 →
      (sendMany crypto opusEncode ssrc calls st).cipher = some key ∧
      (sendMany crypto opusEncode ssrc calls st).sequence
        = (st.sequence + calls.length) % 2 ^ 16 ∧
      (sendMany crypto opusEncode ssrc calls st).timestamp
        = (st.timestamp + TIMESTAMP_STEP * calls.length) % 2 ^ 32 := by
  intro calls
  induction calls with
  | nil =>
    intro st key hc hs ht
    refine ⟨hc, ?_, ?_⟩
    · simp only [sendMany, List.length_nil, Nat.add_zero]
      exact (Nat.mod_eq_of_lt hs).symm
    · simp only [sendMany, List.length_nil, Nat.mul_zero, Nat.add_zero]
      exact (Nat.mod_eq_of_lt ht).symm
  | cons call rest ih =>
    intro st key hc hs ht
    obtain ⟨nonce, frame⟩ := call
    have hstep := sendVoicePacket_some crypto opusEncode ssrc nonce st frame key hc
    have h1 : (sendVoicePacket crypto opusEncode ssrc nonce st frame).1.cipher
        = some key := by rw [hstep]; exact hc
    have h2 := ih (sendVoicePacket crypto opusEncode ssrc nonce st frame).1 key h1
      (by rw [hstep]; exact Nat.mod_lt _ (by norm_num))
      (by rw [hstep]; exact Nat.mod_lt _ (by norm_num))
    refine ⟨h2.1, ?_, ?_⟩
    · rw [sendMany, h2.2.1, hstep]
      show ((st.sequence + 1) % 2 ^ 16 + rest.length) % 2 ^ 16 = _
      rw [Nat.mod_add_mod]
      congr 1
      simp [List.length_cons]
      ring
    · rw [sendMany, h2.2.2, hstep]
      show ((st.timestamp + TIMESTAMP_STEP) % 2 ^ 32 + TIMESTAMP_STEP * rest.length) % 2 ^ 32 = _
      rw [Nat.mod_add_mod]
      congr 1
      simp [List.length_cons]
      ring

/-- C3: with a cipher installed, every `send_voice_packet` call advances the
sequence counter by exactly 1 mod `2^16` and the timestamp by exactly
`TIMESTAMP_STEP = 960` samples mod `2^32`, for every nonce and every frame
(opus or pcm, silence included); after any chain of calls the counters hold
`initial + count` reduced mod the width; after exactly `2^16 = 65536` calls
the sequence returns to its initial value, and after any shorter nonzero
chain it has not yet returned. -/
theorem sendVoicePacket_counterWrap (crypto : Crypto)
    (opusEncode : List Int → List Nat) (ssrc : Nat) (st : VoiceState)
    (key : List Nat) (hcipher : st.cipher = some key)
    (hseq : st.sequence < 2 ^ 16) (hts : st.timestamp < 2 ^ 32) :
    (∀ (nonce : List Nat) (frame : AudioFrame),
      (sendVoicePacket crypto opusEncode ssrc nonce st frame).1.sequence
        = (st.sequence + 1) % 2 ^ 16 ∧
      (sendVoicePacket crypto opusEncode ssrc nonce st frame).1.timestamp
        = (st.timestamp + TIMESTAMP_STEP) % 2 ^ 32) ∧
    TIMESTAMP_STEP = 960 ∧
    (∀ calls : List (List Nat × AudioFrame),
      (sendMany crypto opusEncode ssrc calls st).sequence
        = (st.sequence + calls.length) % 2 ^ 16 ∧
      (sendMany crypto opusEncode ssrc calls st).timestamp
        = (st.timestamp + TIMESTAMP_STEP * calls.length) % 2 ^ 32) ∧
    (∀ calls : List (List Nat × AudioFrame), calls.length = 2 ^ 16 →
      (sendMany crypto opusEncode ssrc calls st).sequence = st.sequence) ∧
    (∀ calls : List (List Nat × AudioFrame),
      0 < calls.length → calls.length < 2 ^ 16 →
      (sendMany crypto opusEncode ssrc calls st).sequence ≠ st.sequence) := by
  refine ⟨?_, by decide, ?_, ?_, ?_⟩
  · intro nonce frame
    rw [sendVoicePacket_some crypto opusEncode ssrc nonce st frame key hcipher]
    exact ⟨rfl, rfl⟩
  · intro calls
    exact (sendMany_counters crypto opusEncode ssrc calls st key hcipher hseq hts).2
  · intro calls hlen
    rw [(sendMany_counters crypto opusEncode ssrc calls st key hcipher hseq hts).2.1,
      hlen, Nat.add_mod_right]
    exact Nat.mod_eq_of_lt hseq
  · intro calls hpos hlt heq
    rw [(sendMany_counters crypto opusEncode ssrc calls st key hcipher hseq hts).2.1] at heq
    have hmod : (st.sequence + calls.length) % 2 ^ 16 = st.sequence % 2 ^ 16 := by
      rw [heq, Nat.mod_eq_of_lt hseq]
    have hdvd : (2 ^ 16 : Nat) ∣ calls.length := by
      have h0 : st.sequence + calls.length ≡ st.sequence + 0 [MOD 2 ^ 16] := by
        show (st.sequence + calls.length) % 2 ^ 16 = (st.sequence + 0) % 2 ^ 16
        simpa using hmod
      exact (Nat.modEq_zero_iff_dvd).mp (Nat.ModEq.add_left_cancel' _ h0)
    have := Nat.le_of_dvd hpos hdvd
    omega

/-- A trivial instance of the abstract cipher, used only to witness theorems
with hypotheses at concrete inputs. -/
def dummyCrypto : Crypto where
  encTag := fun _ _ _ => List.replicate 16 0
  encCt := fun _ _ p => p
  tagLen := by intro k n p; simp
  ctLen := by intro k n p; simp

/-- Witness for C3 at a concrete state. -/
theorem sendVoicePacket_counterWrap_witness :
    (sendMany dummyCrypto (fun _ => []) 1
        (List.replicate (2 ^ 16) (List.replicate 24 0, AudioFrame.opus OPUS_SILENCE_FRAME))
        ⟨some [], 5, 7, []⟩).sequence = 5 :=
  (sendVoicePacket_counterWrap dummyCrypto (fun _ => []) 1 ⟨some [], 5, 7, []⟩ []
    rfl (by decide) (by decide)).2.2.2.1 _ (by rw [List.length_replicate])

/-- C5 counterexample: `recv_rtcp_stats` checks the socket before the cipher.
Called with no session key installed and no pending datagram (`try_recv_from`
returns `WouldBlock`), it returns `Ok(())` — not an error mentioning the
cipher — refuting the claim that every such call errors. -/
theorem recvRtcpStats_noCipher_ok_cex :
    recvRtcpStats ⟨none, 5, 7, []⟩ none = (⟨none, 5, 7, []⟩, .ok ())
      ∧ ∀ e : String, recvRtcpStats ⟨none, 5, 7, []⟩ none ≠ (⟨none, 5, 7, []⟩, .error e) := by
  exact ⟨rfl, fun e h => by simp [recvRtcpStats] at h⟩

/-- C5 amended: with no session key installed, `send_voice_packet` always
fails with "no voice cipher" leaving the state unchanged (counters not
advanced, nothing sent), and `recv_rtcp_stats` fails the same way when a
datagram is pending — but when the socket has no pending datagram it returns
`Ok(())` without consulting the cipher, also leaving the state unchanged.
`connect` installs the cipher exactly once, immediately after the first
`SessionDescription` (skipping only undecodable packets), and sets the state
to `Connected`. -/
theorem noCipher_errors (crypto : Crypto) (opusEncode : List Int → List Nat)
    (ssrc : Nat) (nonce : List Nat) (st : VoiceState) (frame : AudioFrame)
    (packet : List Nat) (events : List GatewayEvt)
    (hnone : st.cipher = none) :
    sendVoicePacket crypto opusEncode ssrc nonce st frame
      = (st, .error "no voice cipher") ∧
    recvRtcpStats st (some packet) = (st, .error "no voice cipher") ∧
    recvRtcpStats st none = (st, .ok ()) ∧
    (∀ key, awaitSessionDescription events = .ok key →
      connectInstallCipher st events
        = (({ st with cipher := some key }, .connected), .ok ())) ∧
    (∀ pre key rest, (∀ x ∈ pre, x = GatewayEvt.undecodable) →
      awaitSessionDescription (pre ++ GatewayEvt.sessionDescription key :: rest)
        = .ok key) := by
  refine ⟨by simp [sendVoicePacket, hnone], by simp [recvRtcpStats, hnone], rfl, ?_, ?_⟩
  · intro key hk
    simp [connectInstallCipher, hk]
  · intro pre key rest hpre
    induction pre with
    | nil => rfl
    | cons x xs ih =>
      have hx := hpre x (by simp)
      subst hx
      exact ih fun y hy => hpre y (by simp [hy])

/-- Witness for C5 (amended) at a concrete state. -/
theorem noCipher_errors_witness :
    sendVoicePacket dummyCrypto (fun _ => []) 1 (List.replicate 24 0)
        ⟨none, 5, 7, []⟩ (.opus OPUS_SILENCE_FRAME)
      = (⟨none, 5, 7, []⟩, .error "no voice cipher") ∧
    connectInstallCipher ⟨none, 5, 7, []⟩
        [.undecodable, .sessionDescription [1, 2]]
      = ((⟨some [1, 2], 5, 7, []⟩, .connected), .ok ()) := by
  have h := noCipher_errors dummyCrypto (fun _ => []) 1 (List.replicate 24 0)
    ⟨none, 5, 7, []⟩ (.opus OPUS_SILENCE_FRAME) []
    [.undecodable, .sessionDescription [1, 2]] rfl
  exact ⟨h.1, h.2.2.2.1 [1, 2] rfl⟩

/-- C6: every datagram produced by `send_voice_packet` is the 12-byte RTP
header — version 2, payload type `0x78`, big-endian 16-bit sequence,
big-endian 32-bit timestamp, big-endian 32-bit stream id — followed by the
16-byte authentication tag, then the (encrypted-in-place) opus-or-raw audio
of some length `size`, then the 24-byte nonce appended last; the bytes given
to `socket.send` have total length `12 + 16 + size + 24`. -/
theorem mediaDatagramFormat (crypto : Crypto) (opusEncode : List Int → List Nat)
    (ssrc : Nat) (nonce : List Nat) (st st' : VoiceState) (frame : AudioFrame)
    (key : List Nat) (dg : List Nat)
    (hkey : st.cipher = some key) (hnonce : nonce.length = 24)
    (hsend : sendVoicePacket crypto opusEncode ssrc nonce st frame = (st', .ok dg)) :
    dg = rtpHeader st.sequence st.timestamp ssrc
          ++ crypto.encTag key nonce (audioBytes opusEncode frame)
          ++ crypto.encCt key nonce (audioBytes opusEncode frame)
          ++ nonce ∧
    rtpHeader st.sequence st.timestamp ssrc
      = [0x80, 0x78] ++ be16 st.sequence ++ be32 st.timestamp ++ be32 ssrc ∧
    (rtpHeader st.sequence st.timestamp ssrc).length = 12 ∧
    (crypto.encTag key nonce (audioBytes opusEncode frame)).length = 16 ∧
    (crypto.encCt key nonce (audioBytes opusEncode frame)).length
      = (audioBytes opusEncode frame).length ∧
    nonce.length = 24 ∧
    dg.length = 12 + 16 + (audioBytes opusEncode frame).length + 24 ∧
    st'.sent = st.sent ++ [dg] := by
  rw [sendVoicePacket_some crypto opusEncode ssrc nonce st frame key hkey] at hsend
  obtain ⟨hst, hdg⟩ := Prod.mk.injEq .. ▸ hsend
  have hdg' := hdg
  injection hdg' with hdg2
  refine ⟨hdg2.symm, rfl, by simp [rtpHeader, be16, be32], crypto.tagLen .., crypto.ctLen .., hnonce, ?_, ?_⟩
  · rw [← hdg2]
    simp [rtpHeader, be16, be32, crypto.tagLen, crypto.ctLen, hnonce]
    ring
  · rw [← hst, ← hdg2]

/-- Witness for C6 at a concrete state and frame. -/
theorem mediaDatagramFormat_witness :
    (rtpHeader 5 7 3).length = 12 ∧
    (rtpHeader 5 7 3 ++ dummyCrypto.encTag [] (List.replicate 24 9) OPUS_SILENCE_FRAME
        ++ dummyCrypto.encCt [] (List.replicate 24 9) OPUS_SILENCE_FRAME
        ++ List.replicate 24 9).length
      = 12 + 16 + OPUS_SILENCE_FRAME.length + 24 := by
  have h := mediaDatagramFormat dummyCrypto (fun _ => []) 3 (List.replicate 24 9)
    ⟨some [], 5, 7, []⟩ _ (.opus OPUS_SILENCE_FRAME) [] _ rfl
    (by rw [List.length_replicate]) rfl
  exact ⟨h.2.2.1, h.2.2.2.2.2.2.1⟩

/-! ## lib.rs: the `run_udp_loop` send loop

One iteration of the `loop` in `run_udp_loop` (src/voice/src/lib.rs lines
523-594) is modelled as a step function over a `LoopState`.  The floating
point RMS computation (`rms.rs`) is abstracted into a per-tick boolean
oracle `rmsPeak`, the outcome of the `rms > 0.9` comparison; the formalised
claims are about which branch runs on each outcome, not about the float
arithmetic.  `sentFrames` and `events` are ghost logs of the frames passed
to `send_voice_packet` and the events sent on `events_tx`. -/

/-- `VoiceConnectionEvent` from `src/voice/src/lib.rs`; the `f32` payload of
`RmsPeak` is omitted. -/
inductive VoiceConnectionEvent where
  | rmsPeak
deriving DecidableEq, Repr

/-- The send-loop state: the `paused` flag, the `silence_frames_left`
counter, whether the loop is suspended in `paused.wait_for`, the samples
available in the `SampleBuffer`, and the ghost logs. -/
structure LoopState where
  paused : Bool
  silenceFramesLeft : Nat
  waitingUnpause : Bool
  buffered : List Int
  sentFrames : List AudioFrame
  events : List VoiceConnectionEvent
deriving DecidableEq, Repr

/-- `VoiceConnection::set_paused` (src/voice/src/lib.rs lines 368-376):
stores the flag and resets `silence_frames_left` to `OPUS_SILENCE_FRAMES`
when pausing, to 0 when unpausing (the RMS window reset is not modelled).
Unpausing wakes the loop if it is suspended in `paused.wait_for`. -/
def setPaused (st : LoopState) (isPaused : Bool) : LoopState :=
  { st with
      paused := isPaused,
      silenceFramesLeft := if isPaused then OPUS_SILENCE_FRAMES else 0,
      waitingUnpause := st.waitingUnpause && isPaused }

/-- One non-exiting iteration of the send loop (src/voice/src/lib.rs lines
542-588).  While suspended in `paused.wait_for` the loop makes no progress.
If paused with silence frames left: decrement the counter, send one
`OPUS_SILENCE_FRAME`, and suspend once the counter hits 0.  Otherwise: read
exactly `PACKET_SIZE` samples from the buffer, and depending on the RMS
check either send a silence frame (the event send on `events_tx` is
commented out in the source, so no event is logged) or send the samples as
a `Pcm` frame. -/
def udpLoopTick (rmsPeak : Bool) (st : LoopState) : LoopState :=
  if st.waitingUnpause then st
  else if st.paused && decide (0 < st.silenceFramesLeft) then
    let st1 := { st with
      silenceFramesLeft := st.silenceFramesLeft - 1,
      sentFrames := st.sentFrames ++ [.opus OPUS_SILENCE_FRAME] }
    if st1.silenceFramesLeft = 0 then { st1 with waitingUnpause := true } else st1
  else
    let data := st.buffered.take PACKET_SIZE
    let st1 := { st with buffered := st.buffered.drop PACKET_SIZE }
    if rmsPeak then
      { st1 with sentFrames := st1.sentFrames ++ [.opus OPUS_SILENCE_FRAME] }
    else
      { st1 with sentFrames := st1.sentFrames ++ [.pcm data] }

/-- Iterated loop ticks, one RMS-oracle outcome per tick. -/
def udpLoopTicks : List Bool → LoopState → LoopState
  | [], st => st
  | p :: ps, st => udpLoopTicks ps (udpLoopTick p st)

/-- C7 counterexample: on a non-paused tick whose RMS check fires, the loop
substitutes a silence frame for the popped frame but emits no notification
event — the `events_tx.send_async(VoiceConnectionEvent::RmsPeak(..))` call
is commented out in `run_udp_loop`; the event log stays empty, refuting the
claimed emission. -/
theorem udpLoopTick_rmsPeak_noEvent_cex :
    udpLoopTick true ⟨false, 0, false, List.replicate PACKET_SIZE 1, [], []⟩
      = ⟨false, 0, false, [], [.opus OPUS_SILENCE_FRAME], []⟩ ∧
    (udpLoopTick true ⟨false, 0, false, List.replicate PACKET_SIZE 1, [], []⟩).events
      = [] ∧
    ([] : List VoiceConnectionEvent) ≠ [.rmsPeak] := by
  refine ⟨?_, ?_, by simp⟩ <;> simp [udpLoopTick, PACKET_SIZE]

/-- C7 amended: on every non-paused tick the loop pops `PACKET_SIZE` samples
from the buffer; if the RMS check fires it substitutes a full silence frame
for them, otherwise it encodes and sends them normally; in neither case is a
notification event emitted (the emission is disabled in the source, which
only logs the peak). -/
theorem udpLoopTick_active (rmsPeak : Bool) (st : LoopState)
    (hw : st.waitingUnpause = false) (hp : st.paused = false) :
    udpLoopTick rmsPeak st
      = { st with
          buffered := st.buffered.drop PACKET_SIZE,
          sentFrames := st.sentFrames ++
            [if rmsPeak then .opus OPUS_SILENCE_FRAME
              else .pcm (st.buffered.take PACKET_SIZE)] } ∧
    (udpLoopTick rmsPeak st).events = st.events := by
  cases rmsPeak <;> simp [udpLoopTick, hw, hp]

/-- Witness for C7 (amended) at a concrete state. -/
theorem udpLoopTick_active_witness :
    udpLoopTick false ⟨false, 0, false, [4, 5], [], []⟩
      = ⟨false, 0, false, [], [.pcm [4, 5]], []⟩ := by
  have h := udpLoopTick_active false ⟨false, 0, false, [4, 5], [], []⟩ rfl rfl
  rw [h.1]
  simp [PACKET_SIZE, TIMESTAMP_STEP, CHANNEL_COUNT, SAMPLE_RATE, CHUNK_DURATION_MS]

/-- While suspended in `paused.wait_for`, ticks make no progress at all. -/
theorem udpLoopTicks_waiting (peaks : List Bool) (st : LoopState)
    (hw : st.waitingUnpause = true) : udpLoopTicks peaks st = st := by
  induction peaks with
  | nil => rfl
  | cons p ps ih => simp [udpLoopTicks, udpLoopTick, hw, ih]

/-- While paused with `k > 0` silence frames left and not yet suspended, `n`
ticks send exactly `min n k` further silence frames, read nothing from the
buffer, emit no events, and leave the loop suspended once `k` ticks have
elapsed. -/
theorem udpLoopTicks_paused (peaks : List Bool) :
    ∀ st : LoopState, st.paused = true → st.waitingUnpause = false →
    0 < st.silenceFramesLeft →
    (udpLoopTicks peaks st).paused = true ∧
    (udpLoopTicks peaks st).buffered = st.buffered ∧
    (udpLoopTicks peaks st).events = st.events ∧
    (udpLoopTicks peaks st).sentFrames = st.sentFrames ++
      List.replicate (min peaks.length st.silenceFramesLeft)
        (.opus OPUS_SILENCE_FRAME) ∧
    (st.silenceFramesLeft ≤ peaks.length →
      (udpLoopTicks peaks st).waitingUnpause = true) := by
  induction peaks with
  | nil =>
    intro st hp hw hn
    refine ⟨hp, rfl, rfl, by simp [udpLoopTicks], ?_⟩
    intro hle
    simp only [List.length_nil, Nat.le_zero] at hle
    omega
  | cons p ps ih =>
    intro st hp hw hn
    have hstep : udpLoopTick p st =
        if st.silenceFramesLeft - 1 = 0 then
          { st with
            silenceFramesLeft := st.silenceFramesLeft - 1,
            sentFrames := st.sentFrames ++ [.opus OPUS_SILENCE_FRAME],
            waitingUnpause := true }
        else
          { st with
            silenceFramesLeft := st.silenceFramesLeft - 1,
            sentFrames := st.sentFrames ++ [.opus OPUS_SILENCE_FRAME] } := by
      simp [udpLoopTick, hw, hp, hn]
    by_cases hone : st.silenceFramesLeft - 1 = 0
    · have hl : st.silenceFramesLeft = 1 := by omega
      rw [show udpLoopTicks (p :: ps) st = udpLoopTicks ps (udpLoopTick p st) from rfl,
        hstep, if_pos hone,
        udpLoopTicks_waiting ps _ rfl]
      refine ⟨hp, rfl, rfl, ?_, fun _ => rfl⟩
      simp [hl]
    · rw [show udpLoopTicks (p :: ps) st = udpLoopTicks ps (udpLoopTick p st) from rfl,
        hstep, if_neg hone]
      have h2 := ih
        { st with
          silenceFramesLeft := st.silenceFramesLeft - 1,
          sentFrames := st.sentFrames ++ [.opus OPUS_SILENCE_FRAME] }
        hp hw (by simpa using Nat.pos_of_ne_zero hone)
      refine ⟨h2.1, h2.2.1, h2.2.2.1, ?_, ?_⟩
      · rw [h2.2.2.2.1]
        simp only [List.append_assoc, List.singleton_append]
        rw [← List.replicate_succ]
        congr 2
        simp only [List.length_cons]
        omega
      · intro hle
        exact h2.2.2.2.2 (by simp at hle ⊢; omega)

/-- C8: after `set_paused(true)` the send loop transmits at most
`OPUS_SILENCE_FRAMES = 5` silence frames (and nothing else), reads zero
samples from the jitter buffer and emits no events while paused; once 5
ticks have elapsed it is suspended: further ticks are no-ops until
`set_paused(false)` clears the suspension. -/
theorem pauseBehavior (st : LoopState) (peaks : List Bool) :
    (udpLoopTicks peaks (setPaused st true)).buffered = st.buffered ∧
    (udpLoopTicks peaks (setPaused st true)).events = st.events ∧
    (∃ k ≤ OPUS_SILENCE_FRAMES,
      (udpLoopTicks peaks (setPaused st true)).sentFrames
        = st.sentFrames ++ List.replicate k (.opus OPUS_SILENCE_FRAME)) ∧
    (OPUS_SILENCE_FRAMES ≤ peaks.length →
      (udpLoopTicks peaks (setPaused st true)).waitingUnpause = true ∧
      (∀ p, udpLoopTick p (udpLoopTicks peaks (setPaused st true))
        = udpLoopTicks peaks (setPaused st true)) ∧
      (setPaused (udpLoopTicks peaks (setPaused st true)) false).waitingUnpause
        = false) := by
  by_cases hw : st.waitingUnpause = true
  · have hs0 : (setPaused st true).waitingUnpause = true := by
      simp [setPaused, hw]
    rw [udpLoopTicks_waiting peaks _ hs0]
    refine ⟨rfl, rfl, ⟨0, by omega, by simp [setPaused]⟩, fun _ => ⟨hs0, ?_, ?_⟩⟩
    · intro p
      simp [udpLoopTick, hs0]
    · simp [setPaused]
  · have hw' : st.waitingUnpause = false := by simpa using hw
    have h := udpLoopTicks_paused peaks (setPaused st true)
      (by simp [setPaused]) (by simp [setPaused, hw'])
      (by simp [setPaused, OPUS_SILENCE_FRAMES])
    refine ⟨h.2.1, h.2.2.1, ⟨min peaks.length OPUS_SILENCE_FRAMES, ?_, ?_⟩, ?_⟩
    · omega
    · have := h.2.2.2.1
      simpa [setPaused] using this
    · intro hlen
      have hwt := h.2.2.2.2 (by simpa [setPaused] using hlen)
      refine ⟨hwt, ?_, ?_⟩
      · intro p
        simp [udpLoopTick, hwt]
      · simp [setPaused, hwt]

/-- Witness for C8 at a concrete state and tick count. -/
theorem pauseBehavior_witness :
    (udpLoopTicks [false, false, false, false, false, false]
        (setPaused ⟨false, 0, false, [3, 4], [], []⟩ true)).buffered = [3, 4] ∧
    (udpLoopTicks [false, false, false, false, false, false]
        (setPaused ⟨false, 0, false, [3, 4], [], []⟩ true)).waitingUnpause = true := by
  have h := pauseBehavior ⟨false, 0, false, [3, 4], [], []⟩
    [false, false, false, false, false, false]
  exact ⟨h.1, (h.2.2.2 (by decide)).1⟩

/-! ## lib.rs: the exit path of `run_udp_loop` (lines 596-613) -/

/-- `data.chunks(PACKET_SIZE)` over the samples returned by
`sample_buffer.flush()`: consecutive chunks of `PACKET_SIZE` samples, the
last one possibly shorter, none empty. -/
def chunksOfPacket (l : List Int) : List (List Int) :=
  if h : l = [] then []
  else l.take PACKET_SIZE :: chunksOfPacket (l.drop PACKET_SIZE)
termination_by l.length
decreasing_by
  simp only [List.length_drop]
  have h1 : 0 < l.length := List.length_pos.mpr h
  have h2 : 0 < PACKET_SIZE := by decide
  omega

/-- `chunk.resize(PACKET_SIZE, 0f32)` on a flush chunk: pad with zero
samples up to `PACKET_SIZE`. -/
def padChunk (chunk : List Int) : List Int :=
  chunk ++ List.replicate (PACKET_SIZE - chunk.length) 0

/-- The observable outcome of the exit path: the frames sent while
flushing, the buffer contents after `sample_buffer.clear()`, and the
connection state on return. -/
structure ExitResult where
  flushed : List AudioFrame
  bufferAfter : List Int
  stateAfter : VoiceConnectionState
deriving DecidableEq, Repr

/-- The code after the send loop in `run_udp_loop` (src/voice/src/lib.rs
lines 596-613), for the two loop exits (stop flag or ingestion finished):
unless stop was requested, flush the buffer and send every chunk
zero-padded to `PACKET_SIZE` as a `Pcm` frame; in both cases clear the
buffer and set the state to `Connected`. -/
def udpLoopExit (stopRequested : Bool) (buffered : List Int) : ExitResult :=
  { flushed :=
      if stopRequested then []
      else (chunksOfPacket buffered).map (fun c => .pcm (padChunk c)),
    bufferAfter := [],
    stateAfter := .connected }

/-- The chunks of the flushed samples concatenate back to them. -/
theorem chunksOfPacket_flatten (l : List Int) :
    (chunksOfPacket l).flatten = l := by
  induction l using chunksOfPacket.induct with
  | case1 => rw [chunksOfPacket]; simp
  | case2 l h ih =>
    rw [chunksOfPacket]
    simp only [h, dite_false, List.flatten_cons, ih]
    exact List.take_append_drop _ l

/-- Every chunk has at most `PACKET_SIZE` samples and is nonempty. -/
theorem chunksOfPacket_mem (l : List Int) :
    ∀ c ∈ chunksOfPacket l, c.length ≤ PACKET_SIZE ∧ c ≠ [] := by
  induction l using chunksOfPacket.induct with
  | case1 => rw [chunksOfPacket]; simp
  | case2 l h ih =>
    rw [chunksOfPacket]
    simp only [h, dite_false, List.mem_cons]
    rintro c (rfl | hc)
    · constructor
      · simp only [List.length_take]
        omega
      · have h1 : 0 < l.length := List.length_pos.mpr h
        have h2 : (l.take PACKET_SIZE).length = min PACKET_SIZE l.length :=
          List.length_take _ _
        intro hnil
        rw [hnil] at h2
        simp only [List.length_nil] at h2
        have h3 : 0 < PACKET_SIZE := by decide
        omega
    · exact ih c hc

/-- Padding a chunk gives exactly `PACKET_SIZE` samples, with the original
chunk as a prefix followed by zeros. -/
theorem padChunk_length (c : List Int) (h : c.length ≤ PACKET_SIZE) :
    (padChunk c).length = PACKET_SIZE := by
  simp only [padChunk, List.length_append, List.length_replicate]
  omega

/-- C9: on the two exits of `run_udp_loop` named by the spec (ingestion
finished, or explicit stop), the buffer is cleared and the state is set to
`Connected`; when stop was not requested the remaining buffered samples are
first flushed as `Pcm` frames, each a chunk zero-padded to `PACKET_SIZE`,
the chunks concatenating back to exactly the buffered samples; when stop was
requested nothing is flushed. -/
theorem udpLoopExit_spec (stopRequested : Bool) (buffered : List Int) :
    (udpLoopExit stopRequested buffered).bufferAfter = [] ∧
    (udpLoopExit stopRequested buffered).stateAfter = .connected ∧
    (stopRequested = true → (udpLoopExit stopRequested buffered).flushed = []) ∧
    (stopRequested = false →
      (udpLoopExit stopRequested buffered).flushed
        = (chunksOfPacket buffered).map (fun c => .pcm (padChunk c)) ∧
      (chunksOfPacket buffered).flatten = buffered ∧
      ∀ f ∈ (udpLoopExit stopRequested buffered).flushed,
        ∃ c ∈ chunksOfPacket buffered,
          f = .pcm (c ++ List.replicate (PACKET_SIZE - c.length) 0) ∧
          (padChunk c).length = PACKET_SIZE) := by
  refine ⟨rfl, rfl, fun hs => by simp [udpLoopExit, hs], fun hs => ?_⟩
  refine ⟨by simp [udpLoopExit, hs], chunksOfPacket_flatten buffered, ?_⟩
  intro f hf
  simp only [udpLoopExit, hs, if_neg Bool.false_ne_true, List.mem_map] at hf
  obtain ⟨c, hc, rfl⟩ := hf
  exact ⟨c, hc, rfl, padChunk_length c (chunksOfPacket_mem buffered c hc).1⟩

/-- Witness for C9 at a concrete buffer. -/
theorem udpLoopExit_witness :
    (udpLoopExit false [1, 2, 3]).stateAfter = VoiceConnectionState.connected ∧
    (udpLoopExit true [1, 2, 3]).flushed = [] ∧
    (chunksOfPacket [1, 2, 3]).flatten = [1, 2, 3] := by
  refine ⟨(udpLoopExit_spec false [1, 2, 3]).2.1,
    (udpLoopExit_spec true [1, 2, 3]).2.2.1 rfl,
    ((udpLoopExit_spec false [1, 2, 3]).2.2.2 rfl).2.1⟩

/-! ## buffer.rs: `SampleBuffer`

`SampleBuffer::write` holds the producer lock for the whole call and
`SampleBuffer::read` the consumer lock, so an execution is an interleaving
of atomic writer steps (one iteration of the push loop: `push_slice` of
`min(free_len, remaining)` samples, publication of the new length, the cork
check `len >= high_threshold`, and the `is_corked.get()` recheck) and
atomic reader steps (one `read` call: pop of exactly `n` samples and the
uncork check `len <= low_threshold`).  Suspension in `is_corked.wait_for`
or in `wait_for(size)` is modelled by the step being disabled (`none`). -/

/-- Configuration parameters of `SampleBuffer::new(capacity, low_threshold,
high_threshold)`. -/
structure BufCfg where
  capacity : Nat
  low_threshold : Nat
  high_threshold : Nat
deriving DecidableEq, Repr

/-- The assertions in `SampleBuffer::new`. -/
def BufCfg.wellFormed (cfg : BufCfg) : Prop :=
  cfg.low_threshold ≤ cfg.high_threshold ∧
  cfg.low_threshold ≤ cfg.capacity ∧ cfg.high_threshold ≤ cfg.capacity

/-- The writer task's control position inside `SampleBuffer::write`:
`idle` between `write` calls; `entering data` at the leading
`is_corked.wait_for(false)`; `looping data written` at the head of the
`while written < data.len()` loop; `blocked data written` suspended at the
in-loop `is_corked.wait_for(false)` after a push corked the buffer. -/
inductive WriterPC (α : Type) where
  | idle
  | entering (data : List α)
  | looping (data : List α) (written : Nat)
  | blocked (data : List α) (written : Nat)
deriving DecidableEq, Repr

/-- A configuration of one writer task performing the writes of `pending`
in order, interleaved with a reader.  `buf` is the unread ring-buffer
contents (front = oldest), `corked` the `is_corked` flag, `reads` the ghost
log of every sample returned by `read` so far. -/
structure Config (α : Type) where
  buf : List α
  corked : Bool
  pc : WriterPC α
  pending : List (List α)
  reads : List α
deriving DecidableEq, Repr

/-- One atomic step of the writer task; `none` when the writer is suspended
on the cork or has no write left to start.  The `looping` case is one
iteration of the push loop in `SampleBuffer::write` (buffer.rs lines
71-89): push `min(free_len, remaining)` samples, cork if the published
length reached `high_threshold`, then suspend if corked. -/
def writerStep (cfg : BufCfg) (c : Config α) : Option (Config α) :=
  match c.pc with
  | .idle =>
    match c.pending with
    | [] => none
    | d :: rest => some { c with pc := .entering d, pending := rest }
  | .entering d =>
    if c.corked then none
    else some { c with pc := .looping d 0 }
  | .looping d written =>
    if written < d.length then
      let free := cfg.capacity - c.buf.length
      let endIdx := min (written + free) d.length
      let buf1 := c.buf ++ (d.take endIdx).drop written
      let corked1 := c.corked || decide (cfg.high_threshold ≤ buf1.length)
      some { c with
        buf := buf1,
        corked := corked1,
        pc := if corked1 then .blocked d endIdx else .looping d endIdx }
    else
      some { c with pc := .idle }
  | .blocked d written =>
    if c.corked then none
    else some { c with pc := .looping d written }

/-- One `SampleBuffer::read(out)` call with `out.len() = n` as an atomic
step (buffer.rs lines 94-109): enabled once at least `n` samples are
buffered (`wait_for`), pops exactly `n` from the front, and uncorks when
the remaining length is at or below `low_threshold`. -/
def readStep (cfg : BufCfg) (n : Nat) (c : Config α) : Option (Config α) :=
  if n ≤ c.buf.length then
    let buf1 := c.buf.drop n
    some { c with
      buf := buf1,
      corked :=
        if decide (buf1.length ≤ cfg.low_threshold) && c.corked then false
        else c.corked,
      reads := c.reads ++ c.buf.take n }
  else none

/-- An interleaving action: one writer step or one `read n`. -/
inductive BufAct where
  | w
  | r (n : Nat)
deriving DecidableEq, Repr

/-- Dispatch one action. -/
def bufStep (cfg : BufCfg) (a : BufAct) (c : Config α) : Option (Config α) :=
  match a with
  | .w => writerStep cfg c
  | .r n => readStep cfg n c

/-- Run an interleaving; `none` if some action was disabled at its turn, in
which case that sequence is not an execution of the program. -/
def bufRun (cfg : BufCfg) : List BufAct → Config α → Option (Config α)
  | [], c => some c
  | a :: acts, c => (bufStep cfg a c).bind (bufRun cfg acts)

/-- The initial configuration: empty uncorked buffer, writer about to
perform the given sequence of `write` calls. -/
def initConfig (writes : List (List α)) : Config α :=
  { buf := [], corked := false, pc := .idle, pending := writes, reads := [] }

/-- The samples of the writer's current `write` call not yet pushed. -/
def WriterPC.unwritten : WriterPC α → List α
  | .idle => []
  | .entering d => d
  | .looping d k => d.drop k
  | .blocked d k => d.drop k

/-- All samples not yet pushed into the buffer: the rest of the current
write followed by the queued writes. -/
def Config.outstanding (c : Config α) : List α :=
  c.pc.unwritten ++ c.pending.flatten

/-- Whether the writer sits at the head of the push loop. -/
def WriterPC.isLooping : WriterPC α → Bool
  | .looping _ _ => true
  | _ => false

/-- The cork invariant: a corked buffer means the writer is not at the loop
head (it suspends right after the push that corked), and a length at or
above `high_threshold` means the buffer is corked. -/
def CorkInv (cfg : BufCfg) (c : Config α) : Prop :=
  (c.corked = true → c.pc.isLooping = false) ∧
  (cfg.high_threshold ≤ c.buf.length → c.corked = true)

/-- Every configuration traversed while running `acts` from `c` (the start
included, each successor included) keeps the buffer length strictly above
`low_threshold`. -/
def lensAboveLow (cfg : BufCfg) : List BufAct → Config α → Bool
  | [], c => decide (cfg.low_threshold < c.buf.length)
  | a :: acts, c =>
    decide (cfg.low_threshold < c.buf.length) &&
      (match bufStep cfg a c with
       | none => true
       | some c1 => lensAboveLow cfg acts c1)

/-- The buffer of the hysteresis scenario:
`SampleBuffer::new(300, 100, 200)`. -/
def cfg300 : BufCfg := { capacity := 300, low_threshold := 100, high_threshold := 200 }

/-- Dropping `k` of the first `e` elements and appending the rest beyond
`e` is dropping `k`, for `k ≤ e ≤ l.length`. -/
theorem take_drop_chunk (l : List α) (k e : Nat) (hk : k ≤ e)
    (he : e ≤ l.length) :
    (l.take e).drop k ++ l.drop e = l.drop k := by
  have hlen : (l.take e).length = e := by
    rw [List.length_take]
    omega
  have h0 : k - (l.take e).length = 0 := by omega
  calc (l.take e).drop k ++ l.drop e
      = (l.take e).drop k ++ (l.drop e).drop (k - (l.take e).length) := by
        rw [h0, List.drop_zero]
    _ = (l.take e ++ l.drop e).drop k := (List.drop_append_eq_append_drop).symm
    _ = l.drop k := by rw [List.take_append_drop]

/-- Every buffer step preserves the stream content: read samples, then
buffered samples, then not-yet-pushed samples always concatenate to the
same list. -/
theorem bufStep_content (cfg : BufCfg) (a : BufAct) (c c' : Config α)
    (h : bufStep cfg a c = some c') :
    c'.reads ++ c'.buf ++ c'.outstanding = c.reads ++ c.buf ++ c.outstanding := by
  cases a with
  | r n =>
    simp only [bufStep, readStep] at h
    split at h
    · injection h with h
      subst h
      simp only [Config.outstanding, List.append_assoc]
      rw [← List.append_assoc (c.buf.take n), List.take_append_drop]
    · exact absurd h (by simp)
  | w =>
    obtain ⟨buf, corked, pc, pending, reads⟩ := c
    simp only [bufStep] at h
    cases pc with
    | idle =>
      cases pending with
      | nil => exact absurd h (by simp [writerStep])
      | cons d rest =>
        simp only [writerStep] at h
        injection h with h
        subst h
        simp [Config.outstanding, WriterPC.unwritten]
    | entering d =>
      simp only [writerStep] at h
      split at h
      · exact absurd h (by simp)
      · injection h with h
        subst h
        simp [Config.outstanding, WriterPC.unwritten]
    | looping d k =>
      simp only [writerStep] at h
      by_cases hk : k < d.length
      · rw [if_pos hk] at h
        injection h with h
        subst h
        have hke : k ≤ min (k + (cfg.capacity - buf.length)) d.length :=
          le_min (Nat.le_add_right _ _) (le_of_lt hk)
        have hel : min (k + (cfg.capacity - buf.length)) d.length ≤ d.length :=
          min_le_right _ _
        have hchunk := take_drop_chunk d k _ hke hel
        have hun : ∀ (b : Bool) (m : Nat),
            ((if b = true then WriterPC.blocked d m else WriterPC.looping d m) :
              WriterPC α).unwritten = d.drop m := by
          intro b m
          cases b
          · rfl
          · rfl
        simp only [Config.outstanding, WriterPC.unwritten, hun]
        conv_rhs => rw [← hchunk]
        simp [List.append_assoc]
        split_ifs
        · rfl
        · rfl
      · rw [if_neg hk] at h
        injection h with h
        subst h
        simp [Config.outstanding, WriterPC.unwritten,
          List.drop_eq_nil_of_le (le_of_not_lt hk)]
    | blocked d k =>
      simp only [writerStep] at h
      split at h
      · exact absurd h (by simp)
      · injection h with h
        subst h
        simp [Config.outstanding, WriterPC.unwritten]

/-- Content preservation along a whole run. -/
theorem bufRun_content (cfg : BufCfg) (acts : List BufAct) :
    ∀ c c' : Config α, bufRun cfg acts c = some c' →
      c'.reads ++ c'.buf ++ c'.outstanding = c.reads ++ c.buf ++ c.outstanding := by
  induction acts with
  | nil =>
    intro c c' h
    injection h with h
    subst h
    rfl
  | cons a acts ih =>
    intro c c' h
    simp only [bufRun] at h
    cases hs : bufStep cfg a c with
    | none => rw [hs] at h; exact absurd h (by simp)
    | some c1 =>
      rw [hs] at h
      exact (ih c1 c' h).trans (bufStep_content cfg a c c1 hs)

/-- C2: for every interleaving of the queued writes `W1..Wn` with reads of
arbitrary sizes (one reader), once the reader has consumed exactly
`(W1 ++ ... ++ Wn).length` samples, the samples it got are exactly
`W1 ++ ... ++ Wn`, in order. -/
theorem fifo_order {α : Type} (cfg : BufCfg) (writes : List (List α))
    (acts : List BufAct) (c : Config α)
    (hrun : bufRun cfg acts (initConfig writes) = some c)
    (hlen : c.reads.length = writes.flatten.length) :
    c.reads = writes.flatten := by
  have h := bufRun_content cfg acts (initConfig writes) c hrun
  have hinit : (initConfig writes).reads ++ (initConfig writes).buf
      ++ (initConfig writes).outstanding = writes.flatten := by
    simp [initConfig, Config.outstanding, WriterPC.unwritten]
  rw [hinit] at h
  have hlen2 := congrArg List.length h
  simp only [List.length_append] at hlen2
  have hbuf : c.buf = [] := List.eq_nil_of_length_eq_zero (by omega)
  have hout : c.outstanding = [] := List.eq_nil_of_length_eq_zero (by omega)
  rw [hbuf, hout, List.append_nil, List.append_nil] at h
  exact h

/-- Witness for C2 at a concrete interleaving of two writes and one read. -/
theorem fifo_order_witness :
    (Config.mk [] false .idle [] [1, 2, 3] : Config Int).reads
      = ([[1, 2], [3]] : List (List Int)).flatten :=
  fifo_order cfg300 [[1, 2], [3]]
    [.w, .w, .w, .w, .w, .w, .w, .w, .r 3]
    ⟨[], false, .idle, [], [1, 2, 3]⟩ (by decide) (by decide)

/-- Every configuration checked by `lensAboveLow` starts above the low
threshold. -/
theorem lensAboveLow_head {α : Type} (cfg : BufCfg) (acts : List BufAct)
    (c : Config α) (h : lensAboveLow cfg acts c = true) :
    cfg.low_threshold < c.buf.length := by
  cases acts with
  | nil => simpa [lensAboveLow] using h
  | cons a acts =>
    simp only [lensAboveLow, Bool.and_eq_true, decide_eq_true_eq] at h
    exact h.1

/-- One step preserves the cork invariant (for `low < high`). -/
theorem bufStep_corkInv {α : Type} (cfg : BufCfg)
    (hlh : cfg.low_threshold < cfg.high_threshold)
    (a : BufAct) (c c' : Config α) (h : bufStep cfg a c = some c')
    (hinv : CorkInv cfg c) : CorkInv cfg c' := by
  obtain ⟨buf, corked, pc, pending, reads⟩ := c
  have h1 : corked = true → pc.isLooping = false := hinv.1
  have h2 : cfg.high_threshold ≤ buf.length → corked = true := hinv.2
  cases a with
  | r n =>
    simp only [bufStep, readStep] at h
    split at h
    case isTrue hn =>
      injection h with h
      subst h
      refine ⟨?_, ?_⟩
      · intro hc'
        by_cases hcond :
            (decide ((List.drop n buf).length ≤ cfg.low_threshold) && corked) = true
        · have hc'' : (if (decide ((List.drop n buf).length ≤ cfg.low_threshold)
              && corked) = true then false else corked) = true := hc'
          rw [if_pos hcond] at hc''
          exact absurd hc'' (by simp)
        · have hc'' : (if (decide ((List.drop n buf).length ≤ cfg.low_threshold)
              && corked) = true then false else corked) = true := hc'
          rw [if_neg hcond] at hc''
          exact h1 hc''
      · intro hlen
        have hlen' : cfg.high_threshold ≤ (List.drop n buf).length := hlen
        have hble : cfg.high_threshold ≤ buf.length := by
          simp only [List.length_drop] at hlen'
          omega
        have hcond : ¬ ((decide ((List.drop n buf).length ≤ cfg.low_threshold)
            && corked) = true) := by
          simp only [Bool.and_eq_true, decide_eq_true_eq]
          rintro ⟨hl, _⟩
          omega
        show (if (decide ((List.drop n buf).length ≤ cfg.low_threshold)
            && corked) = true then false else corked) = true
        rw [if_neg hcond]
        exact h2 hble
    case isFalse => exact absurd h (by simp)
  | w =>
    cases pc with
    | idle =>
      cases pending with
      | nil => exact absurd h (by simp [bufStep, writerStep])
      | cons dd rest =>
        simp only [bufStep, writerStep] at h
        injection h with h
        subst h
        exact ⟨fun _ => rfl, h2⟩
    | entering d =>
      simp only [bufStep, writerStep] at h
      split at h
      case isTrue => exact absurd h (by simp)
      case isFalse hcf =>
        injection h with h
        subst h
        have hcf' : corked = false := by simpa using hcf
        refine ⟨?_, ?_⟩
        · intro hc'
          rw [hcf'] at hc'
          exact absurd hc' (by simp)
        · intro hlen
          exact absurd (h2 hlen) (by simp [hcf'])
    | looping d k =>
      have hcf : corked = false := by
        cases hck : corked
        · rfl
        · exact absurd (h1 hck) (by simp [WriterPC.isLooping])
      simp only [bufStep, writerStep] at h
      by_cases hk : k < d.length
      · rw [if_pos hk] at h
        injection h with h
        subst h
        refine ⟨?_, ?_⟩
        · intro hc'
          show WriterPC.isLooping (if (corked || decide (cfg.high_threshold ≤
              (buf ++ List.drop k (List.take
                (min (k + (cfg.capacity - buf.length)) d.length) d)).length)) = true
            then WriterPC.blocked d (min (k + (cfg.capacity - buf.length)) d.length)
            else WriterPC.looping d (min (k + (cfg.capacity - buf.length)) d.length))
            = false
          rw [if_pos hc']
          rfl
        · intro hlen
          show (corked || decide (cfg.high_threshold ≤
              (buf ++ List.drop k (List.take
                (min (k + (cfg.capacity - buf.length)) d.length) d)).length)) = true
          simp only [Bool.or_eq_true, decide_eq_true_eq]
          exact Or.inr hlen
      · rw [if_neg hk] at h
        injection h with h
        subst h
        refine ⟨?_, ?_⟩
        · intro hc'
          rw [hcf] at hc'
          exact absurd hc' (by simp)
        · intro hlen
          exact absurd (h2 hlen) (by simp [hcf])
    | blocked d k =>
      simp only [bufStep, writerStep] at h
      split at h
      case isTrue => exact absurd h (by simp)
      case isFalse hcf =>
        injection h with h
        subst h
        have hcf' : corked = false := by simpa using hcf
        refine ⟨?_, ?_⟩
        · intro hc'
          rw [hcf'] at hc'
          exact absurd hc' (by simp)
        · intro hlen
          exact absurd (h2 hlen) (by simp [hcf'])

/-- While corked and above the low threshold, one step pushes nothing: the
outstanding samples and the pushed-sample count are unchanged, the cork
stays set, and a suspended writer stays exactly where it was. -/
theorem bufStep_corked {α : Type} (cfg : BufCfg) (a : BufAct) (c c' : Config α)
    (h : bufStep cfg a c = some c') (hinv : CorkInv cfg c)
    (hc : c.corked = true) (hlow : cfg.low_threshold < c'.buf.length) :
    c'.corked = true ∧ c'.outstanding = c.outstanding ∧
    c'.reads.length + c'.buf.length = c.reads.length + c.buf.length ∧
    (∀ d k, c.pc = .blocked d k → c'.pc = .blocked d k) := by
  obtain ⟨buf, corked, pc, pending, reads⟩ := c
  have h1 : corked = true → pc.isLooping = false := hinv.1
  cases a with
  | r n =>
    simp only [bufStep, readStep] at h
    split at h
    case isTrue hn =>
      injection h with h
      subst h
      have hlow' : cfg.low_threshold < (List.drop n buf).length := hlow
      have hcond : ¬ ((decide ((List.drop n buf).length ≤ cfg.low_threshold)
          && corked) = true) := by
        simp only [Bool.and_eq_true, decide_eq_true_eq]
        rintro ⟨hl, _⟩
        omega
      refine ⟨?_, rfl, ?_, ?_⟩
      · show (if (decide ((List.drop n buf).length ≤ cfg.low_threshold)
            && corked) = true then false else corked) = true
        rw [if_neg hcond]
        exact hc
      · show (reads ++ List.take n buf).length + (List.drop n buf).length
          = reads.length + buf.length
        simp only [List.length_append, List.length_take, List.length_drop]
        omega
      · intro d k hdk
        exact hdk
    case isFalse => exact absurd h (by simp)
  | w =>
    cases pc with
    | idle =>
      cases pending with
      | nil => exact absurd h (by simp [bufStep, writerStep])
      | cons dd rest =>
        simp only [bufStep, writerStep] at h
        injection h with h
        subst h
        refine ⟨hc, ?_, rfl, ?_⟩
        · simp [Config.outstanding, WriterPC.unwritten]
        · intro d k hdk
          exact absurd hdk (by simp)
    | entering d =>
      simp only [bufStep, writerStep] at h
      rw [if_pos hc] at h
      exact absurd h (by simp)
    | looping d k =>
      exact absurd (h1 hc) (by simp [WriterPC.isLooping])
    | blocked d k =>
      simp only [bufStep, writerStep] at h
      rw [if_pos hc] at h
      exact absurd h (by simp)

/-- The cork invariant holds along every run. -/
theorem bufRun_corkInv {α : Type} (cfg : BufCfg)
    (hlh : cfg.low_threshold < cfg.high_threshold) (acts : List BufAct) :
    ∀ c c' : Config α, bufRun cfg acts c = some c' → CorkInv cfg c →
      CorkInv cfg c' := by
  induction acts with
  | nil =>
    intro c c' h hinv
    injection h with h
    subst h
    exact hinv
  | cons a acts ih =>
    intro c c' h hinv
    simp only [bufRun] at h
    cases hs : bufStep cfg a c with
    | none => rw [hs] at h; exact absurd h (by simp)
    | some c1 =>
      rw [hs] at h
      exact ih c1 c' h (bufStep_corkInv cfg hlh a c c1 hs hinv)

/-- While corked, a run whose every configuration stays above the low
threshold pushes nothing: outstanding samples and the pushed-sample count
are unchanged, the buffer stays corked, and a suspended writer stays
suspended where it was. -/
theorem bufRun_corked {α : Type} (cfg : BufCfg)
    (hlh : cfg.low_threshold < cfg.high_threshold) (acts : List BufAct) :
    ∀ c c' : Config α, bufRun cfg acts c = some c' → CorkInv cfg c →
      c.corked = true → lensAboveLow cfg acts c = true →
      c'.corked = true ∧ c'.outstanding = c.outstanding ∧
      c'.reads.length + c'.buf.length = c.reads.length + c.buf.length ∧
      (∀ d k, c.pc = .blocked d k → c'.pc = .blocked d k) := by
  induction acts with
  | nil =>
    intro c c' h hinv hc hab
    injection h with h
    subst h
    exact ⟨hc, rfl, rfl, fun d k hdk => hdk⟩
  | cons a acts ih =>
    intro c c' h hinv hc hab
    simp only [bufRun] at h
    simp only [lensAboveLow, Bool.and_eq_true] at hab
    cases hs : bufStep cfg a c with
    | none => rw [hs] at h; exact absurd h (by simp)
    | some c1 =>
      rw [hs] at h
      have hab1 : lensAboveLow cfg acts c1 = true := by
        have hm := hab.2
        rw [hs] at hm
        simpa using hm
      have hlow1 := lensAboveLow_head cfg acts c1 hab1
      have hstep := bufStep_corked cfg a c c1 hs hinv hc hlow1
      have hinv1 := bufStep_corkInv cfg hlh a c c1 hs hinv
      have hrest := ih c1 c' h hinv1 hstep.1 hab1
      refine ⟨hrest.1, hrest.2.1.trans hstep.2.1, ?_, ?_⟩
      · have e1 := hrest.2.2.1
        have e2 := hstep.2.2.1
        omega
      · intro d k hdk
        exact hrest.2.2.2 d k (hstep.2.2.2 d k hdk)

/-- The initial configuration satisfies the cork invariant. -/
theorem corkInv_init {α : Type} (cfg : BufCfg) (hpos : 0 < cfg.high_threshold)
    (writes : List (List α)) : CorkInv cfg (initConfig writes) := by
  refine ⟨fun hc => absurd hc (by simp [initConfig]), fun hlen => ?_⟩
  exfalso
  have hlen' : cfg.high_threshold ≤ ([] : List α).length := hlen
  simp only [List.length_nil, Nat.le_zero] at hlen'
  omega

set_option maxRecDepth 10000 in
/-- C1 counterexample: with `SampleBuffer::new(300, 100, 200)` and an empty
buffer, a `write` of 250 samples pushes all 250 in its first loop iteration
(`min(free_len, remaining) = min(300, 250) = 250`) and only then runs the
cork check; the writer's first suspension therefore happens with 250
samples buffered, not 200.  The three writer steps are: start the call,
pass the entry cork wait, and perform the single push; after them the
writer is suspended (`writerStep` is disabled), the buffer is corked and
holds 250 samples, while after each of the first two steps the writer was
not suspended. -/
theorem corkThreshold_cex :
    ((bufRun cfg300 [.w, .w, .w] (initConfig [List.replicate 250 (0 : Int)])).map
        (fun c => ((writerStep cfg300 c).isNone, c.corked, c.buf.length))
      = some (true, true, 250)) ∧
    ((bufRun cfg300 [.w] (initConfig [List.replicate 250 (0 : Int)])).map
        (fun c => (writerStep cfg300 c).isNone) = some false) ∧
    ((bufRun cfg300 [.w, .w] (initConfig [List.replicate 250 (0 : Int)])).map
        (fun c => (writerStep cfg300 c).isNone) = some false) ∧
    (250 : Nat) ≠ 200 := by
  refine ⟨by decide, by decide, by decide, by decide⟩

set_option maxRecDepth 10000 in
/-- C1 amended: with `SampleBuffer::new(300, 100, 200)`, a write of 250
samples into the empty buffer pushes all 250 samples in one chunk and then
suspends the writer — with 250 (not 200) samples buffered, the cork check
running after each push so the overshoot over the high threshold is bounded
by one push, here the whole write — and keeps it suspended until a reader
drains the length to at most 100, after which the write call returns;
and for every initial write queue and every interleaving of write and read
steps, once the buffer length reaches the high threshold, no further writer
progress happens (no sample is pushed: the outstanding samples and the
pushed-sample count are unchanged and the buffer stays corked) as long as
the length stays above the low threshold. -/
theorem corkHysteresis :
    ((bufRun cfg300 [.w, .w, .w] (initConfig [List.replicate 250 (0 : Int)])).map
        (fun c => ((writerStep cfg300 c).isNone, c.corked, c.buf.length))
      = some (true, true, 250)) ∧
    ((bufRun cfg300 [.w, .w, .w, .r 150, .w, .w]
        (initConfig [List.replicate 250 (0 : Int)])).map
        (fun c => (c.corked, c.buf.length, c.reads.length,
          decide (c.pc = .idle)))
      = some (false, 100, 150, true)) ∧
    (∀ (writes : List (List Int)) (acts0 : List BufAct) (c : Config Int),
      bufRun cfg300 acts0 (initConfig writes) = some c →
      cfg300.high_threshold ≤ c.buf.length →
      ∀ (acts : List BufAct) (c' : Config Int),
        bufRun cfg300 acts c = some c' →
        lensAboveLow cfg300 acts c = true →
        c'.corked = true ∧ c'.outstanding = c.outstanding ∧
        c'.reads.length + c'.buf.length = c.reads.length + c.buf.length ∧
        (∀ d k, c.pc = .blocked d k → c'.pc = .blocked d k)) := by
  refine ⟨by decide, by decide, ?_⟩
  intro writes acts0 c hreach hhigh acts c' hrun hab
  have hinvc : CorkInv cfg300 c :=
    bufRun_corkInv cfg300 (by decide) acts0 (initConfig writes) c hreach
      (corkInv_init cfg300 (by decide) writes)
  have hc : c.corked = true := hinvc.2 hhigh
  exact bufRun_corked cfg300 (by decide) acts c c' hrun hinvc hc hab

set_option maxRecDepth 10000 in
/-- Witness for C1 (amended): the corked configuration reached by the
250-sample write, drained by 50 samples (still above the low threshold),
stays corked with the writer still suspended and nothing further pushed. -/
theorem corkHysteresis_witness :
    (Config.mk (List.replicate 200 (0 : Int)) true
        (.blocked (List.replicate 250 0) 250) [] (List.replicate 50 0)).corked
      = true ∧
    (Config.mk (List.replicate 200 (0 : Int)) true
        (.blocked (List.replicate 250 0) 250) [] (List.replicate 50 0)).reads.length
        + (Config.mk (List.replicate 200 (0 : Int)) true
            (.blocked (List.replicate 250 0) 250) [] (List.replicate 50 0)).buf.length
      = (Config.mk (List.replicate 250 (0 : Int)) true
            (.blocked (List.replicate 250 0) 250) [] []).reads.length
        + (Config.mk (List.replicate 250 (0 : Int)) true
            (.blocked (List.replicate 250 0) 250) [] []).buf.length := by
  have h := corkHysteresis.2.2 [List.replicate 250 (0 : Int)] [.w, .w, .w]
    ⟨List.replicate 250 0, true, .blocked (List.replicate 250 0) 250, [], []⟩
    (by decide) (by decide) [.r 50]
    ⟨List.replicate 200 0, true, .blocked (List.replicate 250 0) 250, [],
      List.replicate 50 0⟩
    (by decide) (by decide)
  exact ⟨h.1, h.2.2.1⟩

end Mosaik
